import Mathlib

/-!
Verification of the file-system cleanup utility
(src/scripts/js/cleanDataSources.js, both script variants).

JS strings are modelled as lists of characters (`Str`), paths as lists of
path segments, and the file-system subtree reachable from the search root
as an inductive tree (`Entry`) in which read/stat failures are recorded
explicitly: a file whose read fails carries `none`, a directory whose
listing cannot be read carries `readable = false`, and an entry whose
stat fails is `statErr`.
-/

/-- JS strings, modelled as lists of characters. -/
abbrev Str := List Char

/-- Whitespace characters stripped by JS String.prototype.trim
(ASCII portion, which is all that occurs in this program's data). -/
def jsWS (c : Char) : Bool :=
  c == ' ' || c == '\t' || c == '\n' || c == '\r' || c == '\x0b' || c == '\x0c'

/-- JS String.prototype.trim: strip leading and trailing whitespace. -/
def trimStr (s : Str) : Str :=
  ((s.dropWhile jsWS).reverse.dropWhile jsWS).reverse

/-- JS String.prototype.split(/\r?\n/): break a string into lines,
treating both "\n" and "\r\n" as line separators. -/
def splitLines : Str → List Str
  | [] => [[]]
  | '\r' :: '\n' :: rest => [] :: splitLines rest
  | '\n' :: rest => [] :: splitLines rest
  | c :: rest =>
    match splitLines rest with
    | [] => [[c]]
    | l :: ls => (c :: l) :: ls

/-- JS content.includes(sub): literal substring containment. -/
def jsIncludes (content sub : Str) : Bool :=
  decide (sub <:+: content)

/-- JS line.startsWith("#"). -/
def startsWithHash (s : Str) : Bool :=
  match s with
  | '#' :: _ => true
  | _ => false

-- --- Configuration constants of cleanDataSources.js ---

def TARGET_FOLDER_NAME : Str := "dataSourceObjects".data

def CRITERIA_STRING : Str := "<objectType>Object</objectType>".data

def SCRIPT_IGNORE_COMMENT : Str :=
  "# Entries added by cleanupDataSourceObjects.js".data

def IGNORE_DIRS : List Str :=
  ["node_modules".data, ".git".data, ".sf".data, ".sfdx".data,
   ".vscode".data, ".svn".data]

-- --- File-system model ---

/-- One node of the file-system tree under the search root.
`file none` is a regular file whose read throws; `dir false _` is a
directory whose readdir throws; `statErr` is an entry whose stat throws
(permission problem or broken symlink). -/
inductive Entry : Type where
  | file (content : Option Str) : Entry
  | dir (readable : Bool) (children : List (Str × Entry)) : Entry
  | statErr : Entry

/-- stat.isDirectory() on an entry whose stat succeeded. -/
def Entry.isDir : Entry → Bool
  | .dir _ _ => true
  | _ => false

/-- stat.isFile() on an entry whose stat succeeded. -/
def Entry.isFile : Entry → Bool
  | .file _ => true
  | _ => false

mutual
/-- findTargetFoldersRecursive(currentPath, targetName): list the
directory, and for each child that stats as a directory, emit its path
when its base name equals the target name, then recurse unless the base
name is in IGNORE_DIRS.  Any stat failure skips just that child; a
readdir failure yields no results for that directory. -/
def findTargetFoldersRecursive (targetName : Str) (currentPath : List Str) :
    Entry → List (List Str)
  | .dir true cs => findTargetFoldersInChildren targetName currentPath cs
  | _ => []
/-- The entry loop of findTargetFoldersRecursive: emit and recurse per
child, in listing order. -/
def findTargetFoldersInChildren (targetName : Str) (currentPath : List Str) :
    List (Str × Entry) → List (List Str)
  | [] => []
  | (n, c) :: rest =>
    (if c.isDir then
      (if n = targetName then [currentPath ++ [n]] else []) ++
      (if IGNORE_DIRS.contains n then []
       else findTargetFoldersRecursive targetName (currentPath ++ [n]) c)
     else []) ++ findTargetFoldersInChildren targetName currentPath rest
end

/-- identifyFilesForAction(folderPath, criteria): among the direct
children of the folder, return (in listing order) the paths of the
regular files whose content reads successfully and does not contain the
criteria string.  Stat/read failures skip that child; a readdir failure
yields the empty list. -/
def identifyFilesForAction (folderPath : List Str) (e : Entry)
    (criteria : Str) : List (List Str) :=
  match e with
  | .dir true cs =>
    cs.flatMap (fun nc =>
      match nc.2 with
      | .file (some content) =>
        if jsIncludes content criteria then [] else [folderPath ++ [nc.1]]
      | _ => [])
  | _ => []

-- --- Navigation, deletion and well-formedness of the tree ---

/-- Resolve a path from a node, as the OS resolves a path handed to
stat/readdir/unlink: at each directory, look the segment up by name. -/
def entryAt : Entry → List Str → Option Entry
  | e, [] => some e
  | .dir _ cs, n :: rest =>
    match cs.find? (fun nc => nc.1 == n) with
    | some nc => entryAt nc.2 rest
    | none => none
  | _, _ :: _ => none

/-- The path denotes a regular file. -/
def isFileAt (e : Entry) (p : List Str) : Bool :=
  match entryAt e p with
  | some (.file _) => true
  | _ => false

/-- fs.unlinkSync(p): remove the regular file at path p; any failure
(no such entry, entry is a directory, bad path) leaves the tree
unchanged. -/
def removePath : Entry → List Str → Entry
  | .dir r cs, [n] =>
    .dir r (cs.filter (fun nc => !(nc.1 == n && nc.2.isFile)))
  | .dir r cs, n :: m :: rest =>
    .dir r (cs.map (fun nc =>
      if nc.1 == n then (nc.1, removePath nc.2 (m :: rest)) else nc))
  | e, _ => e

mutual
/-- Well-formed file-system tree: inside every directory the child
names are distinct, as in a real file system. -/
def Entry.wf : Entry → Bool
  | .dir _ cs => decide ((cs.map Prod.fst).Nodup) && Entry.wfChildren cs
  | _ => true
/-- All children of a listing are themselves well-formed. -/
def Entry.wfChildren : List (Str × Entry) → Bool
  | [] => true
  | (_, c) :: rest => c.wf && Entry.wfChildren rest
end

-- --- The ignore-list file (.forceignore) ---

/-- State of the .forceignore file: absent, present but unreadable
(readFileSync throws; the stored bytes are carried so "no write" is
expressible), or present and readable. -/
inductive IgnoreFile : Type where
  | absent : IgnoreFile
  | unreadable (content : Str) : IgnoreFile
  | readable (content : Str) : IgnoreFile
deriving DecidableEq

/-- The bytes currently stored in the ignore file ([] when absent). -/
def IgnoreFile.contentOf : IgnoreFile → Str
  | .absent => []
  | .unreadable c => c
  | .readable c => c

/-- originalContentLines: the line list the program works from —
empty when the file does not exist, otherwise the split content. -/
def IgnoreFile.linesOf : IgnoreFile → List Str
  | .absent => []
  | .unreadable _ => []
  | .readable c => splitLines c

/-- The existingEntries set: trimmed lines that are non-blank and not
comments.  (JS builds a Set; a list queried with contains has the same
membership.) -/
def existingEntryLines (lines : List Str) : List Str :=
  lines.filterMap (fun line =>
    let t := trimStr line
    if t ≠ [] ∧ startsWithHash t = false then some t else none)

/-- headerExists: some line trims to the script's header comment. -/
def headerExistsIn (lines : List Str) : Bool :=
  lines.any (fun l => trimStr l == SCRIPT_IGNORE_COMMENT)

/-- JS Array.prototype.join with a one-character separator. -/
def joinWith (sep : Char) : List Str → Str
  | [] => []
  | [p] => p
  | p :: q :: rest => p ++ sep :: joinWith sep (q :: rest)

/-- path.relative(root, abs).split(path.sep).join('/') for the paths
this program produces (always strictly below the root). -/
def relativePath (root absPath : List Str) : Str :=
  joinWith '/' (absPath.drop root.length)

/-- The dedup loop over the batch: keep a relative path only if it is
not in the entry set, and grow the set as candidates are accepted. -/
def collectNewPaths (root : List Str) (existing : List Str) :
    List (List Str) → List Str
  | [] => []
  | a :: rest =>
    let rel := relativePath root a
    if existing.contains rel then collectNewPaths root existing rest
    else rel :: collectNewPaths root (rel :: existing) rest

/-- The first conditional newline of contentToAppend: added when the
file has content whose last line is non-blank and is not the header
(or the header is absent). -/
def sepC1 (lines : List Str) : Str :=
  if lines.length > 0 ∧ trimStr (lines.getLastD []) ≠ [] ∧
     (headerExistsIn lines = false ∨
      trimStr (lines.getLastD []) ≠ SCRIPT_IGNORE_COMMENT)
  then ['\n'] else []

/-- The second piece of contentToAppend: the header (preceded by a
blank-line separator when the file has any non-blank line) when the
header is not yet present; otherwise a newline terminating a non-blank
last line that the first piece left unterminated. -/
def sepC2 (lines : List Str) : Str :=
  if headerExistsIn lines = false then
    (if (lines.filter (fun l => decide (trimStr l ≠ []))).length > 0
     then ['\n'] else [])
      ++ SCRIPT_IGNORE_COMMENT ++ ['\n']
  else
    if sepC1 lines = [] ∧ lines.length > 0 ∧
       trimStr (lines.getLastD []) ≠ [] then ['\n'] else []

/-- contentToAppend: the text appended to the ignore file, built
exactly as updateForceignoreFile builds it from the original line list
and the accepted new relative paths: the two separators, then the new
paths joined by newlines, with a trailing newline. -/
def contentToAppend (lines : List Str) (newPaths : List Str) : Str :=
  sepC1 lines ++ sepC2 lines ++ joinWith '\n' newPaths ++ ['\n']

/-- updateForceignoreFile(projectRootPath, absoluteFilePathsToAdd):
read the existing file (aborting on a read error), dedup the batch
against its entries, and when anything new remains append it in one
block; otherwise leave the file untouched. -/
def updateForceignoreFile (root : List Str) (file : IgnoreFile)
    (absPaths : List (List Str)) : IgnoreFile × List Str :=
  match file with
  | .unreadable c => (.unreadable c, [])
  | .absent =>
    if collectNewPaths root [] absPaths = [] then (.absent, [])
    else
      (.readable (contentToAppend [] (collectNewPaths root [] absPaths)),
       collectNewPaths root [] absPaths)
  | .readable content =>
    if collectNewPaths root (existingEntryLines (splitLines content)) absPaths
        = [] then
      (.readable content, [])
    else
      (.readable (content ++
         contentToAppend (splitLines content)
           (collectNewPaths root (existingEntryLines (splitLines content))
             absPaths)),
       collectNewPaths root (existingEntryLines (splitLines content)) absPaths)

-- --- Command-line arguments (first script variant) ---

def DEFAULT_DELETE_FILES : Bool := false

def DEFAULT_UPDATE_FORCEIGNORE : Bool := false

/-- The settings main derives from process.argv. -/
structure ParsedArgs : Type where
  effectiveDeleteFiles : Bool
  effectiveUpdateForceignore : Bool
  remainingArgsForPath : List Str

def startsWithDashDash (s : Str) : Bool :=
  match s with
  | '-' :: '-' :: _ => true
  | _ => false

/-- The argument loop of main: recognised flags set the two options,
arguments not starting with "--" are collected as path candidates, and
unknown flags are warned about and ignored. -/
def parseArgsLoop (acc : ParsedArgs) : List Str → ParsedArgs
  | [] => acc
  | arg :: rest =>
    if arg = "--delete".data then
      parseArgsLoop { acc with effectiveDeleteFiles := true } rest
    else if arg = "--update-forceignore".data then
      parseArgsLoop { acc with effectiveUpdateForceignore := true } rest
    else if arg = "--no-delete".data then
      parseArgsLoop { acc with effectiveDeleteFiles := false } rest
    else if arg = "--no-update-forceignore".data then
      parseArgsLoop { acc with effectiveUpdateForceignore := false } rest
    else if startsWithDashDash arg = false then
      parseArgsLoop
        { acc with remainingArgsForPath := acc.remainingArgsForPath ++ [arg] }
        rest
    else
      parseArgsLoop acc rest

def parseArgs (cliArgs : List Str) : ParsedArgs :=
  parseArgsLoop
    { effectiveDeleteFiles := DEFAULT_DELETE_FILES,
      effectiveUpdateForceignore := DEFAULT_UPDATE_FORCEIGNORE,
      remainingArgsForPath := [] } cliArgs

-- --- The run (first script variant's main) ---

/-- The file-system state a run touches: the tree under the search
root (none when the root path does not exist) and the .forceignore
file at the root.  Paths are root-relative, so the project root passed
to the ignore-list writer is []. -/
structure World : Type where
  root : Option Entry
  ignore : IgnoreFile

/-- The per-target-folder loop of main: identify the files in this
folder that lack the criteria string (reading the folder in the
current tree), delete them at once when deletion is enabled, and
accumulate them; then move to the next folder. -/
def processTargetFolders (del : Bool) :
    List (List Str) → Entry → Entry × List (List Str)
  | [], tree => (tree, [])
  | fp :: rest, tree =>
    let files :=
      identifyFilesForAction fp ((entryAt tree fp).getD Entry.statErr)
        CRITERIA_STRING
    let tree1 := if del then files.foldl removePath tree else tree
    let out := processTargetFolders del rest tree1
    (out.1, files ++ out.2)

/-- main: validate the search root (exit 1 when it does not exist or
is not a directory), scan for target folders (plain exit 0 when none),
then filter each folder, delete when enabled, and finally update the
ignore list when enabled and anything was found.  Returns the final
world and the process exit status. -/
def runMain (opts : ParsedArgs) (w : World) : World × Nat :=
  match w.root with
  | none => (w, 1)
  | some rootEntry =>
    if rootEntry.isDir = false then (w, 1)
    else
      let targetFolders := findTargetFoldersRecursive TARGET_FOLDER_NAME [] rootEntry
      if targetFolders = [] then (w, 0)
      else
        let out := processTargetFolders opts.effectiveDeleteFiles targetFolders rootEntry
        let ignore2 :=
          if opts.effectiveUpdateForceignore = true ∧ out.2 ≠ [] then
            (updateForceignoreFile [] w.ignore out.2).1
          else w.ignore
        ({ root := some out.1, ignore := ignore2 }, 0)

/-- processFilesLookigForAbsence (second script variant): in one pass
over a folder's direct children, delete every regular file whose
content reads successfully and lacks the criteria string — when the
DELETE_FILES constant is set; otherwise only report. -/
def processFilesLookigForAbsence (deleteFiles : Bool) (folderPath : List Str)
    (criteria : Str) (tree : Entry) : Entry :=
  if deleteFiles then
    (identifyFilesForAction folderPath ((entryAt tree folderPath).getD Entry.statErr)
        criteria).foldl removePath tree
  else tree

-- --- General helper lemmas ---

theorem getLastD_irrel {α : Type} (l : List α) (d d' : α) (h : l ≠ []) :
    l.getLastD d = l.getLastD d' := by
  rw [List.getLastD_eq_getLast?, List.getLastD_eq_getLast?,
    List.getLast?_eq_getLast l h]
  rfl

-- --- The Tree Scanner (claims C2, C10) ---

/-- An emitted scan result: a path strictly below the start path whose
base name is the target name and whose intermediate segments (strictly
between the start path and the base name) avoid the ignored set. -/
def ScanEmitted (t : Str) (p q : List Str) : Prop :=
  ∃ q0, q = p ++ q0 ∧ q0 ≠ [] ∧ q0.getLastD [] = t ∧
    ∀ s ∈ q0.dropLast, IGNORE_DIRS.contains s = false

theorem findTarget_spec_all (t : Str) :
    (∀ (p : List Str) (e : Entry),
      ∀ q, q ∈ findTargetFoldersRecursive t p e → ScanEmitted t p q) ∧
    (∀ (p : List Str) (cs : List (Str × Entry)),
      ∀ q, q ∈ findTargetFoldersInChildren t p cs → ScanEmitted t p q) := by
  refine findTargetFoldersRecursive.mutual_induct t
    (fun p e => ∀ q, q ∈ findTargetFoldersRecursive t p e → ScanEmitted t p q)
    (fun p cs => ∀ q, q ∈ findTargetFoldersInChildren t p cs → ScanEmitted t p q)
    ?_ ?_ ?_ ?_
  · intro p cs IH q hq
    rw [findTargetFoldersRecursive] at hq
    exact IH q hq
  · intro e p hne q hq
    have : findTargetFoldersRecursive t p e = [] := by
      cases e with
      | dir r cs =>
        cases r with
        | true => exact absurd rfl (hne cs)
        | false => rfl
      | file c => rfl
      | statErr => rfl
    rw [this] at hq
    exact absurd hq (List.not_mem_nil q)
  · intro p q hq
    exact absurd hq (List.not_mem_nil q)
  · intro p n c rest IHc IHrest q hq
    rw [findTargetFoldersInChildren] at hq
    rcases List.mem_append.mp hq with hA | hB
    · by_cases hdir : c.isDir = true
      · rw [if_pos hdir] at hA
        rcases List.mem_append.mp hA with hA1 | hA2
        · by_cases hnt : n = t
          · rw [if_pos hnt] at hA1
            have hqe : q = p ++ [n] := by simpa using hA1
            exact ⟨[n], hqe, by simp, by simp [hnt], by simp⟩
          · rw [if_neg hnt] at hA1
            exact absurd hA1 (List.not_mem_nil q)
        · by_cases hign : IGNORE_DIRS.contains n = true
          · rw [if_pos hign] at hA2
            exact absurd hA2 (List.not_mem_nil q)
          · rw [if_neg hign] at hA2
            obtain ⟨q0, hq0, hne2, hlast, hdrop⟩ := IHc q hA2
            refine ⟨n :: q0, by simp [hq0], by simp, ?_, ?_⟩
            · rw [List.getLastD_cons, getLastD_irrel q0 n [] hne2]
              exact hlast
            · intro s hs
              rw [List.dropLast_cons_of_ne_nil hne2] at hs
              rcases List.mem_cons.mp hs with rfl | hs2
              · exact Bool.not_eq_true _ ▸ hign
              · exact hdrop s hs2
      · rw [if_neg hdir] at hA
        exact absurd hA (List.not_mem_nil q)
    · exact IHrest q hB

/-- C2: every path the Tree Scanner emits has the target name as its
base name and reaches it without passing through any directory whose
base name is in the ignored set; hence the scanner never recurses into
an ignored-named directory, and a target-named directory nested
strictly inside an ignored-named directory never appears in the
output. -/
theorem c2_scanner_never_enters_ignored (t : Str) (p q : List Str) (e : Entry)
    (hq : q ∈ findTargetFoldersRecursive t p e) : ScanEmitted t p q :=
  (findTarget_spec_all t).1 p e q hq

theorem c2_witness :
    ["a".data, "dataSourceObjects".data] ∈
      findTargetFoldersRecursive TARGET_FOLDER_NAME []
        (.dir true [("a".data,
          .dir true [("dataSourceObjects".data, .dir true [])])]) ∧
    ScanEmitted TARGET_FOLDER_NAME [] ["a".data, "dataSourceObjects".data] :=
  ⟨by decide,
   c2_scanner_never_enters_ignored TARGET_FOLDER_NAME []
     ["a".data, "dataSourceObjects".data]
     (.dir true [("a".data,
       .dir true [("dataSourceObjects".data, .dir true [])])])
     (by decide)⟩

/-- C10: a directory whose child listing cannot be read produces the
empty result from the Criterion Filter, and likewise from the Tree
Scanner — the listing failure never propagates as an exception. -/
theorem c10_unreadable_listing_yields_empty (p : List Str) (t crit : Str)
    (cs : List (Str × Entry)) :
    identifyFilesForAction p (.dir false cs) crit = [] ∧
    findTargetFoldersRecursive t p (.dir false cs) = [] :=
  ⟨rfl, rfl⟩

-- --- The Criterion Filter (claim C1) ---

/-- C1: for a regular file directly inside a matched directory whose
content reads successfully, the Criterion Filter includes it in its
result exactly when the content does not contain the criteria string
as a literal substring. -/
theorem c1_actionable_iff_marker_absent (p : List Str)
    (cs : List (Str × Entry)) (crit n content : Str)
    (hnd : (cs.map Prod.fst).Nodup)
    (hmem : (n, Entry.file (some content)) ∈ cs) :
    (p ++ [n]) ∈ identifyFilesForAction p (.dir true cs) crit ↔
      jsIncludes content crit = false := by
  constructor
  · intro hin
    rw [identifyFilesForAction] at hin
    rw [List.mem_flatMap] at hin
    obtain ⟨nc, hnc, hq⟩ := hin
    match h2 : nc.2 with
    | .file (some c2) =>
      rw [h2] at hq
      dsimp only at hq
      by_cases hinc : jsIncludes c2 crit = true
      · rw [if_pos hinc] at hq
        exact absurd hq (List.not_mem_nil _)
      · rw [if_neg hinc] at hq
        have hn : n = nc.1 := by
          have := List.mem_singleton.mp hq
          have := List.append_cancel_left this
          simpa using this
        have hpair : (n, Entry.file (some content)) = nc := by
          apply List.inj_on_of_nodup_map hnd hmem hnc
          simp [hn]
        have : Entry.file (some content) = Entry.file (some c2) := by
          rw [← h2, ← hpair]
        cases this
        exact Bool.not_eq_true _ ▸ hinc
    | .file none =>
      rw [h2] at hq
      dsimp only at hq
      exact absurd hq (List.not_mem_nil _)
    | .dir r cs2 =>
      rw [h2] at hq
      dsimp only at hq
      exact absurd hq (List.not_mem_nil _)
    | .statErr =>
      rw [h2] at hq
      dsimp only at hq
      exact absurd hq (List.not_mem_nil _)
  · intro habs
    rw [identifyFilesForAction, List.mem_flatMap]
    refine ⟨(n, Entry.file (some content)), hmem, ?_⟩
    dsimp only
    rw [if_neg (by rw [habs]; exact Bool.false_ne_true)]
    exact List.mem_singleton.mpr rfl

theorem c1_witness :
    (([("y".data, Entry.file (some "hello".data))].map Prod.fst)).Nodup ∧
    ("y".data, Entry.file (some "hello".data)) ∈
      [("y".data, Entry.file (some "hello".data))] ∧
    ((([] : List Str) ++ ["y".data]) ∈
        identifyFilesForAction []
          (.dir true [("y".data, Entry.file (some "hello".data))])
          CRITERIA_STRING ↔
      jsIncludes "hello".data CRITERIA_STRING = false) :=
  ⟨by decide, List.mem_singleton.mpr rfl,
   c1_actionable_iff_marker_absent [] _ CRITERIA_STRING "y".data "hello".data
     (by decide) (List.mem_singleton.mpr rfl)⟩

-- --- Exit status and dry-run default (claims C9, C6) ---

theorem processTargetFolders_no_delete (folders : List (List Str))
    (tree : Entry) : (processTargetFolders false folders tree).1 = tree := by
  induction folders with
  | nil => rfl
  | cons fp rest ih =>
    rw [processTargetFolders]
    exact ih

/-- C9: the run exits non-zero exactly when the search root does not
exist or is not a directory; every other run — the no-targets case
included — exits zero. -/
theorem c9_exit_nonzero_iff_bad_root (opts : ParsedArgs) (w : World) :
    (runMain opts w).2 ≠ 0 ↔ ¬ ∃ e, w.root = some e ∧ e.isDir = true := by
  cases hr : w.root with
  | none => simp [runMain, hr]
  | some e =>
    by_cases hd : e.isDir = true
    · have h0 : (runMain opts w).2 = 0 := by
        simp only [runMain, hr]
        rw [if_neg (by simp [hd])]
        split
        · rfl
        · rfl
      simp [h0, hr, hd]
    · have hdf : e.isDir = false := Bool.not_eq_true _ ▸ hd
      simp only [runMain, hr]
      rw [if_pos (by simp [hdf])]
      simp [hr, hdf]

theorem parseArgsLoop_no_flags (acc : ParsedArgs) (args : List Str)
    (h : ∀ a ∈ args, startsWithDashDash a = false) :
    (parseArgsLoop acc args).effectiveDeleteFiles = acc.effectiveDeleteFiles ∧
    (parseArgsLoop acc args).effectiveUpdateForceignore =
      acc.effectiveUpdateForceignore := by
  induction args generalizing acc with
  | nil => exact ⟨rfl, rfl⟩
  | cons a rest ih =>
    have ha : startsWithDashDash a = false := h a (List.mem_cons_self a rest)
    have h1 : a ≠ "--delete".data := by
      intro he; rw [he] at ha; exact absurd ha (by decide)
    have h2 : a ≠ "--update-forceignore".data := by
      intro he; rw [he] at ha; exact absurd ha (by decide)
    have h3 : a ≠ "--no-delete".data := by
      intro he; rw [he] at ha; exact absurd ha (by decide)
    have h4 : a ≠ "--no-update-forceignore".data := by
      intro he; rw [he] at ha; exact absurd ha (by decide)
    rw [parseArgsLoop, if_neg h1, if_neg h2, if_neg h3, if_neg h4,
      if_pos (by rw [ha])]
    exact ih _ (fun b hb => h b (List.mem_cons_of_mem a hb))

/-- C6: with no command-line flag given, both the delete option and
the ignore-list-update option are off, and the run leaves the world
(tree and ignore file) exactly as it was — dry run. -/
theorem c6_default_is_dry_run (args : List Str)
    (hflag : ∀ a ∈ args, startsWithDashDash a = false) (w : World) :
    (parseArgs args).effectiveDeleteFiles = false ∧
    (parseArgs args).effectiveUpdateForceignore = false ∧
    (runMain (parseArgs args) w).1 = w := by
  obtain ⟨hdel0, hupd0⟩ := parseArgsLoop_no_flags _ args hflag
  have hdel : (parseArgs args).effectiveDeleteFiles = false := by
    rw [parseArgs, hdel0]
    rfl
  have hupd : (parseArgs args).effectiveUpdateForceignore = false := by
    rw [parseArgs, hupd0]
    rfl
  refine ⟨hdel, hupd, ?_⟩
  cases hr : w.root with
  | none => simp [runMain, hr]
  | some e =>
    by_cases hd : e.isDir = true
    · simp only [runMain, hr]
      rw [if_neg (by simp [hd])]
      split
      · rfl
      · rw [hdel, hupd]
        rw [if_neg (by simp)]
        rw [processTargetFolders_no_delete]
        cases w with
        | mk root ignore =>
          simp only at hr
          rw [hr]
    · have hdf : e.isDir = false := Bool.not_eq_true _ ▸ hd
      simp only [runMain, hr]
      rw [if_pos (by simp [hdf])]

theorem c6_witness :
    (∀ a ∈ ([] : List Str), startsWithDashDash a = false) ∧
    ((parseArgs []).effectiveDeleteFiles = false ∧
     (parseArgs []).effectiveUpdateForceignore = false ∧
     (runMain (parseArgs [])
        { root := some (.dir true [("a".data, .file (some "x".data))]),
          ignore := .absent }).1 =
       { root := some (.dir true [("a".data, .file (some "x".data))]),
         ignore := .absent }) :=
  ⟨by simp,
   c6_default_is_dry_run [] (by simp)
     { root := some (.dir true [("a".data, .file (some "x".data))]),
       ignore := .absent }⟩

theorem contains_eq_true_iff (l : List Str) (a : Str) :
    l.contains a = true ↔ a ∈ l := List.elem_iff

theorem collectNewPaths_not_in_existing (root : List Str) :
    ∀ (ps : List (List Str)) (ex : List Str) (rp : Str),
      rp ∈ collectNewPaths root ex ps → rp ∉ ex := by
  intro ps
  induction ps with
  | nil =>
    intro ex rp hrp
    rw [collectNewPaths] at hrp
    exact absurd hrp (List.not_mem_nil rp)
  | cons a rest ih =>
    intro ex rp hrp
    rw [collectNewPaths] at hrp
    by_cases h : ex.contains (relativePath root a) = true
    · rw [if_pos h] at hrp
      exact ih ex rp hrp
    · rw [if_neg h] at hrp
      rcases List.mem_cons.mp hrp with rfl | h2
      · exact fun hmem => h ((contains_eq_true_iff ex _).mpr hmem)
      · have h3 := ih _ rp h2
        exact fun hmem => h3 (List.mem_cons_of_mem _ hmem)

theorem collectNewPaths_nodup (root : List Str) :
    ∀ (ps : List (List Str)) (ex : List Str),
      (collectNewPaths root ex ps).Nodup := by
  intro ps
  induction ps with
  | nil =>
    intro ex
    rw [collectNewPaths]
    exact List.nodup_nil
  | cons a rest ih =>
    intro ex
    rw [collectNewPaths]
    by_cases h : ex.contains (relativePath root a) = true
    · rw [if_pos h]
      exact ih ex
    · rw [if_neg h]
      refine List.nodup_cons.mpr ⟨?_, ih _⟩
      intro hmem
      exact collectNewPaths_not_in_existing root rest _ _ hmem
        (List.mem_cons_self _ _)

/-- C3: the Ignore-List Writer only ever appends (the previous bytes
are a prefix of the new bytes, so existing lines are preserved in
order), and the accepted batch contains no path already present as a
trimmed non-comment line and no duplicates within itself. -/
theorem c3_append_only_and_dedup (root : List Str) (file : IgnoreFile)
    (absPaths : List (List Str)) :
    (∃ app, ((updateForceignoreFile root file absPaths).1).contentOf =
        file.contentOf ++ app) ∧
    ((updateForceignoreFile root file absPaths).2).Nodup ∧
    (∀ rp ∈ (updateForceignoreFile root file absPaths).2,
      rp ∉ existingEntryLines file.linesOf) := by
  cases file with
  | unreadable c =>
    exact ⟨⟨[], by simp [updateForceignoreFile, IgnoreFile.contentOf]⟩,
      List.nodup_nil, fun rp hrp => absurd hrp (List.not_mem_nil rp)⟩
  | absent =>
    rw [updateForceignoreFile]
    by_cases h : collectNewPaths root [] absPaths = []
    · rw [if_pos h]
      exact ⟨⟨[], rfl⟩, List.nodup_nil,
        fun rp hrp => absurd hrp (List.not_mem_nil rp)⟩
    · rw [if_neg h]
      exact ⟨⟨_, rfl⟩, collectNewPaths_nodup root absPaths _,
        fun rp hrp => collectNewPaths_not_in_existing root absPaths _ rp hrp⟩
  | readable c =>
    rw [updateForceignoreFile]
    by_cases h : collectNewPaths root (existingEntryLines (splitLines c))
        absPaths = []
    · rw [if_pos h]
      exact ⟨⟨[], by simp [IgnoreFile.contentOf]⟩, List.nodup_nil,
        fun rp hrp => absurd hrp (List.not_mem_nil rp)⟩
    · rw [if_neg h]
      exact ⟨⟨_, rfl⟩, collectNewPaths_nodup root absPaths _,
        fun rp hrp => collectNewPaths_not_in_existing root absPaths _ rp hrp⟩

theorem c3_witness :
    (∃ app, ((updateForceignoreFile [] (.readable "a\n".data)
        [["b".data]]).1).contentOf =
        (IgnoreFile.readable "a\n".data).contentOf ++ app) ∧
    ((updateForceignoreFile [] (.readable "a\n".data) [["b".data]]).2).Nodup ∧
    (∀ rp ∈ (updateForceignoreFile [] (.readable "a\n".data) [["b".data]]).2,
      rp ∉ existingEntryLines (IgnoreFile.readable "a\n".data).linesOf) :=
  c3_append_only_and_dedup [] (.readable "a\n".data) [["b".data]]

-- --- Line-splitting toolkit (towards claims C4, C7) ---

theorem splitLines_ne_nil : ∀ s : Str, splitLines s ≠ [] := by
  intro s
  induction s using splitLines.induct with
  | case1 => simp [splitLines.eq_1]
  | case2 rest ih => simp [splitLines.eq_2]
  | case3 rest ih => simp [splitLines.eq_3]
  | case4 c rest h1 h2 he ih => exact absurd he ih
  | case5 c rest h1 h2 l ls he ih =>
    rw [splitLines.eq_4 c rest h1 h2, he]
    simp

theorem headD_cons_tail {α : Type} (l : List α) (h : l ≠ []) (d : α) :
    l.headD d :: l.tail = l := by
  cases l with
  | nil => exact absurd rfl h
  | cons a t => rfl

theorem getLast?_cons_ne_nil {α : Type} (a : α) (l : List α) (h : l ≠ []) :
    (a :: l).getLast? = l.getLast? := by
  cases l with
  | nil => exact absurd rfl h
  | cons b t => exact List.getLast?_cons_cons

/-- Splitting a concatenation: when the boundary does not split a
"\r\n" pair, the lines are those of the left part, with its last line
glued to the first line of the right part. -/
theorem splitLines_append_general (xs ys : Str) :
    xs.getLast? ≠ some '\r' ∨ ys.head? ≠ some '\n' →
    splitLines (xs ++ ys) =
      (splitLines xs).dropLast ++
        ((splitLines xs).getLastD [] ++ (splitLines ys).headD []) ::
          (splitLines ys).tail := by
  induction xs using splitLines.induct with
  | case1 =>
    intro h
    rw [List.nil_append, splitLines.eq_1]
    rw [show (([[]] : List Str)).dropLast = [] from rfl]
    rw [show (([[]] : List Str)).getLastD [] = [] from rfl]
    rw [List.nil_append, List.nil_append]
    exact (headD_cons_tail (splitLines ys) (splitLines_ne_nil ys) []).symm
  | case2 rest ih =>
    intro h
    have h' : rest.getLast? ≠ some '\r' ∨ ys.head? ≠ some '\n' := by
      by_cases hr : rest = []
      · subst hr; exact Or.inl (by simp)
      · rcases h with h | h
        · rw [getLast?_cons_ne_nil _ ('\n' :: rest) (by simp),
            getLast?_cons_ne_nil _ rest hr] at h
          exact Or.inl h
        · exact Or.inr h
    have hL := splitLines_ne_nil rest
    rw [show ('\r' :: '\n' :: rest) ++ ys = '\r' :: '\n' :: (rest ++ ys) from rfl,
      splitLines.eq_2, splitLines.eq_2, ih h',
      List.dropLast_cons_of_ne_nil hL, List.getLastD_cons,
      getLastD_irrel _ [] [] hL]
    rfl
  | case3 rest ih =>
    intro h
    have h' : rest.getLast? ≠ some '\r' ∨ ys.head? ≠ some '\n' := by
      by_cases hr : rest = []
      · subst hr; exact Or.inl (by simp)
      · rcases h with h | h
        · rw [getLast?_cons_ne_nil _ rest hr] at h
          exact Or.inl h
        · exact Or.inr h
    have hL := splitLines_ne_nil rest
    rw [show ('\n' :: rest) ++ ys = '\n' :: (rest ++ ys) from rfl,
      splitLines.eq_3, splitLines.eq_3, ih h',
      List.dropLast_cons_of_ne_nil hL, List.getLastD_cons,
      getLastD_irrel _ [] [] hL]
    rfl
  | case4 c rest h1 h2 he ih => exact absurd he (splitLines_ne_nil rest)
  | case5 c rest h1 h2 l ls he ih =>
    intro h
    have h' : rest.getLast? ≠ some '\r' ∨ ys.head? ≠ some '\n' := by
      by_cases hr : rest = []
      · subst hr; exact Or.inl (by simp)
      · rcases h with h | h
        · rw [getLast?_cons_ne_nil _ rest hr] at h
          exact Or.inl h
        · exact Or.inr h
    have hys1 : (∀ r1, c = '\r' → rest ++ ys = '\n' :: r1 → False) := by
      intro r1 hc hra
      cases hrest : rest with
      | nil =>
        rw [hrest] at hra
        rw [List.nil_append] at hra
        rcases h with hl | hr2
        · rw [hrest] at hl
          rw [hc] at hl
          exact hl (by simp)
        · rw [hra] at hr2
          exact hr2 (by simp)
      | cons rh rt =>
        rw [hrest] at hra
        rw [List.cons_append] at hra
        have hrh : rh = '\n' := (List.cons.injEq _ _ _ _ ▸ hra).1
        exact h1 rt hc (by rw [hrest, hrh])
    rw [show (c :: rest) ++ ys = c :: (rest ++ ys) from rfl,
      splitLines.eq_4 c (rest ++ ys) hys1 h2,
      splitLines.eq_4 c rest h1 h2, he, ih h', he]
    cases ls with
    | nil => simp [List.getLastD_cons]
    | cons l2 ls2 => simp [List.getLastD_cons]

theorem dropLast_append_getLastD {α : Type} (l : List α) (h : l ≠ []) (d : α) :
    l.dropLast ++ [l.getLastD d] = l := by
  rw [List.getLastD_eq_getLast?, List.getLast?_eq_getLast l h]
  exact List.dropLast_append_getLast h

theorem trimStr_ws_append (w l : Str) (hw : ∀ c ∈ w, jsWS c = true) :
    trimStr (w ++ l) = trimStr l := by
  unfold trimStr
  rw [List.dropWhile_append, List.dropWhile_eq_nil_iff.mpr hw]
  simp

theorem trimStr_append_ws (l w : Str) (hw : ∀ c ∈ w, jsWS c = true) :
    trimStr (l ++ w) = trimStr l := by
  unfold trimStr
  rw [List.dropWhile_append]
  by_cases hd : (l.dropWhile jsWS).isEmpty = true
  · rw [if_pos hd, List.dropWhile_eq_nil_iff.mpr hw]
    have h0 : l.dropWhile jsWS = [] := by
      cases he : l.dropWhile jsWS with
      | nil => rfl
      | cons a t => rw [he] at hd; simp [List.isEmpty] at hd
    rw [h0]
  · rw [if_neg hd, List.reverse_append, List.dropWhile_append,
      List.dropWhile_eq_nil_iff.mpr
        (by intro c hc; exact hw c (by simpa using hc))]
    simp

theorem trimStr_eq_nil_iff (l : Str) :
    trimStr l = [] ↔ ∀ c ∈ l, jsWS c = true := by
  unfold trimStr
  rw [List.reverse_eq_nil_iff, List.dropWhile_eq_nil_iff]
  constructor
  · intro h c hc
    rcases List.mem_append.mp
        ((List.takeWhile_append_dropWhile jsWS l) ▸ hc) with h1 | h2
    · exact List.mem_takeWhile_imp h1
    · exact h (c) (by simpa using h2)
  · intro h c hc
    exact h c (List.dropWhile_subset _ (by simpa using hc))

theorem trimStr_length_le (s : Str) : (trimStr s).length ≤ s.length := by
  unfold trimStr
  have h1 := (List.dropWhile_sublist (p := jsWS) (l := s)).length_le
  have h2 := (List.dropWhile_sublist (p := jsWS)
    (l := (s.dropWhile jsWS).reverse)).length_le
  simp only [List.length_reverse] at *
  omega

theorem trim_invariant_head_not_ws (c : Char) (t : Str)
    (hp : trimStr (c :: t) = c :: t) : jsWS c = false := by
  by_cases hc : jsWS c = true
  · exfalso
    have heq : trimStr (c :: t) = trimStr t := by
      unfold trimStr
      rw [List.dropWhile_cons_of_pos hc]
    have hlen := trimStr_length_le t
    rw [heq] at hp
    have : (trimStr t).length = t.length + 1 := by rw [hp]; rfl
    omega
  · exact Bool.not_eq_true _ ▸ hc

theorem existingEntryLines_append (A B : List Str) :
    existingEntryLines (A ++ B) =
      existingEntryLines A ++ existingEntryLines B :=
  List.filterMap_append A B _

theorem existingEntryLines_single_blank (a : Str) (h : trimStr a = []) :
    existingEntryLines [a] = [] := by
  simp only [existingEntryLines, List.filterMap_cons, List.filterMap_nil, h]
  simp

theorem existingEntryLines_nil_line :
    existingEntryLines [([] : Str)] = [] :=
  existingEntryLines_single_blank [] rfl

theorem existingEntryLines_congr_single (a b : Str) (h : trimStr a = trimStr b) :
    existingEntryLines [a] = existingEntryLines [b] := by
  simp only [existingEntryLines, List.filterMap, h]

theorem entryLines_nl_cons (ys : Str) :
    existingEntryLines (splitLines ('\n' :: ys)) =
      existingEntryLines (splitLines ys) := by
  rw [splitLines.eq_3,
    show (([] : Str) :: splitLines ys) = [([] : Str)] ++ splitLines ys from rfl,
    existingEntryLines_append, existingEntryLines_nil_line]
  simp

theorem splitLines_no_nl (s : Str) (h : '\n' ∉ s) : splitLines s = [s] := by
  induction s using splitLines.induct with
  | case1 => rfl
  | case2 rest ih => exact absurd (by simp) h
  | case3 rest ih => exact absurd (by simp) h
  | case4 c rest h1 h2 he ih => exact absurd he (splitLines_ne_nil rest)
  | case5 c rest h1 h2 l ls he ih =>
    have hr : '\n' ∉ rest := fun hm => h (List.mem_cons_of_mem c hm)
    rw [splitLines.eq_4 c rest h1 h2, he]
    have := ih hr
    rw [he] at this
    have hl : l = rest := (List.cons.injEq _ _ _ _ ▸ this).1
    have hls : ls = [] := (List.cons.injEq _ _ _ _ ▸ this).2
    rw [hl, hls]

/-- Appending text after a "\n" boundary: the entry set of the whole
is the concatenation of the two entry sets. -/
theorem entryLines_append_nl (xs ys : Str) :
    existingEntryLines (splitLines (xs ++ '\n' :: ys)) =
      existingEntryLines (splitLines xs) ++
        existingEntryLines (splitLines ys) := by
  by_cases hx : xs.getLast? = some '\r'
  · have hne : xs ≠ [] := by intro h; rw [h] at hx; simp at hx
    obtain ⟨xs0, hxs0⟩ : ∃ xs0, xs = xs0 ++ ['\r'] := by
      refine ⟨xs.dropLast, ?_⟩
      have hgl : xs.getLast hne = '\r' := by
        have h2 := List.getLast?_eq_getLast xs hne
        rw [h2] at hx
        exact Option.some.inj hx
      rw [← hgl]
      exact (List.dropLast_append_getLast hne).symm
    subst hxs0
    rw [show (xs0 ++ ['\r']) ++ '\n' :: ys = xs0 ++ ('\r' :: '\n' :: ys) by simp]
    rw [splitLines_append_general xs0 ('\r' :: '\n' :: ys) (Or.inr (by simp))]
    rw [splitLines.eq_2]
    rw [splitLines_append_general xs0 ['\r'] (Or.inr (by simp))]
    rw [show splitLines ['\r'] = [['\r']] from rfl]
    simp only [List.headD_cons, List.tail_cons, List.append_nil]
    rw [show (splitLines xs0).dropLast ++
          ((splitLines xs0).getLastD []) :: splitLines ys
        = ((splitLines xs0).dropLast ++ [(splitLines xs0).getLastD []]) ++
            splitLines ys by simp]
    simp only [existingEntryLines_append]
    rw [existingEntryLines_congr_single ((splitLines xs0).getLastD [] ++ ['\r'])
      ((splitLines xs0).getLastD [])
      (trimStr_append_ws _ ['\r'] (by intro c hc; simp at hc; rw [hc]; rfl))]
  · rw [splitLines_append_general xs ('\n' :: ys) (Or.inl hx)]
    rw [splitLines.eq_3]
    simp only [List.headD_cons, List.tail_cons, List.append_nil]
    rw [show (splitLines xs).dropLast ++
          ((splitLines xs).getLastD []) :: splitLines ys
        = ((splitLines xs).dropLast ++ [(splitLines xs).getLastD []]) ++
            splitLines ys by simp]
    rw [existingEntryLines_append,
      dropLast_append_getLastD _ (splitLines_ne_nil xs) []]

/-- Appending text (not starting with "\n") after content whose last
line is blank: the entry sets concatenate, the merged boundary line
contributing exactly the entry of the appended text's first line. -/
theorem entryLines_append_blank_last (xs ys : Str)
    (hy : ys.head? ≠ some '\n')
    (hblank : trimStr ((splitLines xs).getLastD []) = []) :
    existingEntryLines (splitLines (xs ++ ys)) =
      existingEntryLines (splitLines xs) ++
        existingEntryLines (splitLines ys) := by
  rw [splitLines_append_general xs ys (Or.inr hy)]
  rw [show (splitLines xs).dropLast ++
        ((splitLines xs).getLastD [] ++ (splitLines ys).headD []) ::
          (splitLines ys).tail
      = ((splitLines xs).dropLast ++
          [(splitLines xs).getLastD [] ++ (splitLines ys).headD []]) ++
            (splitLines ys).tail by simp]
  rw [existingEntryLines_append, existingEntryLines_append]
  rw [existingEntryLines_congr_single
      ((splitLines xs).getLastD [] ++ (splitLines ys).headD [])
      ((splitLines ys).headD [])
      (trimStr_ws_append _ _ ((trimStr_eq_nil_iff _).mp hblank))]
  rw [show existingEntryLines (splitLines xs)
      = existingEntryLines ((splitLines xs).dropLast ++
          [(splitLines xs).getLastD []]) by
    rw [dropLast_append_getLastD _ (splitLines_ne_nil xs) []]]
  rw [existingEntryLines_append]
  rw [existingEntryLines_single_blank _ hblank]
  rw [show existingEntryLines (splitLines ys)
      = existingEntryLines ([(splitLines ys).headD []] ++ (splitLines ys).tail) by
    rw [show [(splitLines ys).headD []] ++ (splitLines ys).tail
        = (splitLines ys).headD [] :: (splitLines ys).tail from rfl,
      headD_cons_tail _ (splitLines_ne_nil ys) []]]
  rw [existingEntryLines_append]
  simp

theorem existingEntryLines_single_good (p : Str) (h1 : trimStr p = p)
    (h2 : p ≠ []) (h3 : startsWithHash p = false) :
    existingEntryLines [p] = [p] := by
  simp only [existingEntryLines, List.filterMap_cons, List.filterMap_nil, h1]
  rw [if_pos ⟨h2, h3⟩]

theorem entryLines_header_block (ys : Str) :
    existingEntryLines (splitLines (SCRIPT_IGNORE_COMMENT ++ '\n' :: ys)) =
      existingEntryLines (splitLines ys) := by
  rw [entryLines_append_nl]
  rw [show existingEntryLines (splitLines SCRIPT_IGNORE_COMMENT) = [] from
    by decide]
  simp

/-- A well-formed ignore entry: non-blank, trim-invariant, not a
comment, single-line. -/
def GoodEntry (p : Str) : Prop :=
  p ≠ [] ∧ trimStr p = p ∧ startsWithHash p = false ∧ '\n' ∉ p

instance (p : Str) : Decidable (GoodEntry p) := by
  unfold GoodEntry
  infer_instance

/-- The block of new paths contributes exactly those paths as entries. -/
theorem entryLines_block (paths : List Str)
    (h : ∀ p1 ∈ paths, GoodEntry p1) :
    existingEntryLines (splitLines (joinWith '\n' paths ++ ['\n'])) =
      paths := by
  induction paths with
  | nil => decide
  | cons p rest ih =>
    obtain ⟨hp1, hp2, hp3, hp4⟩ := h p (List.mem_cons_self p rest)
    cases rest with
    | nil =>
      rw [show joinWith '\n' [p] = p from rfl,
        show p ++ ['\n'] = p ++ '\n' :: [] from rfl,
        entryLines_append_nl p [], splitLines_no_nl p hp4,
        existingEntryLines_single_good p hp2 hp1 hp3,
        splitLines.eq_1, existingEntryLines_nil_line]
      simp
    | cons q rest2 =>
      rw [show joinWith '\n' (p :: q :: rest2)
          = p ++ '\n' :: joinWith '\n' (q :: rest2) from rfl]
      rw [show (p ++ '\n' :: joinWith '\n' (q :: rest2)) ++ ['\n']
          = p ++ '\n' :: (joinWith '\n' (q :: rest2) ++ ['\n']) by simp]
      rw [entryLines_append_nl p (joinWith '\n' (q :: rest2) ++ ['\n']),
        splitLines_no_nl p hp4,
        existingEntryLines_single_good p hp2 hp1 hp3,
        ih (fun x hx => h x (List.mem_cons_of_mem p hx))]
      rfl

theorem getLastD_mem {α : Type} (l : List α) (d : α) (h : l ≠ []) :
    l.getLastD d ∈ l := by
  rw [List.getLastD_eq_getLast?, List.getLast?_eq_getLast l h]
  exact List.getLast_mem h

theorem goodEntry_head_ne_nl (p : Str) (h : GoodEntry p) :
    p.head? ≠ some '\n' := by
  obtain ⟨h1, h2, h3, h4⟩ := h
  cases p with
  | nil => simp
  | cons c t =>
    have := trim_invariant_head_not_ws c t h2
    intro hh
    have hc : c = '\n' := by simpa using hh
    rw [hc] at this
    simp [jsWS] at this

theorem block_head_eq (p : Str) (rest : List Str) (hp : p ≠ []) :
    (joinWith '\n' (p :: rest) ++ ['\n']).head? = p.head? := by
  cases rest with
  | nil =>
    rw [show joinWith '\n' [p] = p from rfl]
    exact List.head?_append_of_ne_nil p hp
  | cons q rest2 =>
    rw [show joinWith '\n' (p :: q :: rest2)
        = p ++ '\n' :: joinWith '\n' (q :: rest2) from rfl]
    rw [show (p ++ '\n' :: joinWith '\n' (q :: rest2)) ++ ['\n']
        = p ++ ('\n' :: joinWith '\n' (q :: rest2) ++ ['\n']) by simp]
    exact List.head?_append_of_ne_nil p hp

/-- The second separator followed by the block contributes exactly the
new paths as entries, for every shape the separator can take. -/
theorem entries_sep2_block (lines : List Str) (paths : List Str)
    (hgood : ∀ p1 ∈ paths, GoodEntry p1) :
    existingEntryLines (splitLines
        (sepC2 lines ++ (joinWith '\n' paths ++ ['\n']))) = paths := by
  unfold sepC2
  by_cases hh : headerExistsIn lines = false
  · rw [if_pos hh]
    by_cases hf : (lines.filter (fun l => decide (trimStr l ≠ []))).length > 0
    · rw [if_pos hf]
      rw [show (['\n'] ++ SCRIPT_IGNORE_COMMENT ++ ['\n']) ++
            (joinWith '\n' paths ++ ['\n'])
          = '\n' :: (SCRIPT_IGNORE_COMMENT ++
              '\n' :: (joinWith '\n' paths ++ ['\n'])) by simp]
      rw [entryLines_nl_cons, entryLines_header_block]
      exact entryLines_block paths hgood
    · rw [if_neg hf]
      rw [show (([] : Str) ++ SCRIPT_IGNORE_COMMENT ++ ['\n']) ++
            (joinWith '\n' paths ++ ['\n'])
          = SCRIPT_IGNORE_COMMENT ++
              '\n' :: (joinWith '\n' paths ++ ['\n']) by simp]
      rw [entryLines_header_block]
      exact entryLines_block paths hgood
  · rw [if_neg hh]
    by_cases hc : sepC1 lines = [] ∧ lines.length > 0 ∧
        trimStr (lines.getLastD []) ≠ []
    · rw [if_pos hc]
      rw [show (['\n'] : Str) ++ (joinWith '\n' paths ++ ['\n'])
          = '\n' :: (joinWith '\n' paths ++ ['\n']) from rfl]
      rw [entryLines_nl_cons]
      exact entryLines_block paths hgood
    · rw [if_neg hc]
      rw [List.nil_append]
      exact entryLines_block paths hgood

/-- Appending the block to an existing readable content: the entry set
afterwards is the old entry set followed by exactly the new paths. -/
theorem entryLines_after_append (content : Str) (paths : List Str)
    (hgood : ∀ p1 ∈ paths, GoodEntry p1) (hne : paths ≠ []) :
    existingEntryLines (splitLines
        (content ++ contentToAppend (splitLines content) paths)) =
      existingEntryLines (splitLines content) ++ paths := by
  unfold contentToAppend
  by_cases h1 : (splitLines content).length > 0 ∧
      trimStr ((splitLines content).getLastD []) ≠ [] ∧
      (headerExistsIn (splitLines content) = false ∨
       trimStr ((splitLines content).getLastD []) ≠ SCRIPT_IGNORE_COMMENT)
  · rw [sepC1, if_pos h1]
    rw [show (['\n'] ++ sepC2 (splitLines content)) ++ joinWith '\n' paths ++ ['\n']
        = '\n' :: (sepC2 (splitLines content) ++ (joinWith '\n' paths ++ ['\n']))
        by simp]
    rw [show content ++ '\n' :: (sepC2 (splitLines content) ++
          (joinWith '\n' paths ++ ['\n']))
        = content ++ '\n' :: (sepC2 (splitLines content) ++
          (joinWith '\n' paths ++ ['\n'])) from rfl]
    rw [entryLines_append_nl]
    rw [entries_sep2_block _ paths hgood]
  · have hs1 : sepC1 (splitLines content) = [] := by rw [sepC1, if_neg h1]
    rw [hs1, List.nil_append]
    by_cases hh : headerExistsIn (splitLines content) = false
    · rw [sepC2, if_pos hh]
      by_cases hf : ((splitLines content).filter
          (fun l => decide (trimStr l ≠ []))).length > 0
      · rw [if_pos hf]
        rw [show ((['\n'] ++ SCRIPT_IGNORE_COMMENT ++ ['\n']) ++
              joinWith '\n' paths ++ ['\n'])
            = '\n' :: (SCRIPT_IGNORE_COMMENT ++
                '\n' :: (joinWith '\n' paths ++ ['\n'])) by simp]
        rw [entryLines_append_nl, entryLines_header_block]
        rw [entryLines_block paths hgood]
      · rw [if_neg hf]
        have hblank : ∀ l ∈ splitLines content, trimStr l = [] := by
          have h0 : ((splitLines content).filter
              (fun l => decide (trimStr l ≠ []))).length = 0 := by omega
          have h2 := List.length_eq_zero.mp h0
          intro l hl
          have := List.filter_eq_nil_iff.mp h2 l hl
          simpa using this
        rw [show ((([] : Str) ++ SCRIPT_IGNORE_COMMENT ++ ['\n']) ++
              joinWith '\n' paths ++ ['\n'])
            = SCRIPT_IGNORE_COMMENT ++
                '\n' :: (joinWith '\n' paths ++ ['\n']) by simp]
        rw [entryLines_append_blank_last content
          (SCRIPT_IGNORE_COMMENT ++ '\n' :: (joinWith '\n' paths ++ ['\n']))
          (by rw [List.head?_append_of_ne_nil SCRIPT_IGNORE_COMMENT
                (by decide)]
              decide)
          (hblank _ (getLastD_mem _ [] (splitLines_ne_nil content)))]
        rw [entryLines_header_block, entryLines_block paths hgood]
    · have hh2 : headerExistsIn (splitLines content) = true :=
        Bool.not_eq_false _ ▸ hh
      rw [sepC2, if_neg hh]
      by_cases hc : sepC1 (splitLines content) = [] ∧
          (splitLines content).length > 0 ∧
          trimStr ((splitLines content).getLastD []) ≠ []
      · rw [if_pos hc]
        rw [show ((['\n'] : Str) ++ joinWith '\n' paths ++ ['\n'])
            = '\n' :: (joinWith '\n' paths ++ ['\n']) by simp]
        rw [entryLines_append_nl, entryLines_block paths hgood]
      · rw [if_neg hc, List.nil_append]
        have hlen : (splitLines content).length > 0 := by
          cases he : splitLines content with
          | nil => exact absurd he (splitLines_ne_nil content)
          | cons a t => simp [he]
        have hblank : trimStr ((splitLines content).getLastD []) = [] := by
          by_contra hbl
          exact hc ⟨hs1, hlen, hbl⟩
        obtain ⟨p, rest, hpr⟩ : ∃ p rest, paths = p :: rest := by
          cases paths with
          | nil => exact absurd rfl hne
          | cons p rest => exact ⟨p, rest, rfl⟩
        have hgp : GoodEntry p := hgood p (by rw [hpr]; exact List.mem_cons_self p rest)
        rw [entryLines_append_blank_last content
          (joinWith '\n' paths ++ ['\n'])
          (by rw [hpr, block_head_eq p rest hgp.1]
              exact goodEntry_head_ne_nl p hgp)
          hblank]
        rw [entryLines_block paths hgood]

/-- Appending the block as a fresh file (no prior content): the entry
set is exactly the new paths. -/
theorem entryLines_fresh_append (paths : List Str)
    (hgood : ∀ p1 ∈ paths, GoodEntry p1) :
    existingEntryLines (splitLines (contentToAppend [] paths)) = paths := by
  unfold contentToAppend
  rw [show sepC1 [] = [] by simp [sepC1]]
  rw [show sepC2 [] = SCRIPT_IGNORE_COMMENT ++ ['\n'] by
    simp [sepC2, headerExistsIn]]
  rw [show (([] : Str) ++ (SCRIPT_IGNORE_COMMENT ++ ['\n'])) ++
        joinWith '\n' paths ++ ['\n']
      = SCRIPT_IGNORE_COMMENT ++ '\n' :: (joinWith '\n' paths ++ ['\n'])
      by simp]
  rw [entryLines_header_block, entryLines_block paths hgood]

theorem collectNewPaths_complete (root : List Str) :
    ∀ (ps : List (List Str)) (ex : List Str) (a : List Str), a ∈ ps →
      relativePath root a ∈ collectNewPaths root ex ps ∨
        relativePath root a ∈ ex := by
  intro ps
  induction ps with
  | nil =>
    intro ex a ha
    exact absurd ha (List.not_mem_nil a)
  | cons b rest ih =>
    intro ex a ha
    rw [collectNewPaths]
    by_cases hb : ex.contains (relativePath root b) = true
    · rw [if_pos hb]
      rcases List.mem_cons.mp ha with rfl | ha2
      · exact Or.inr ((contains_eq_true_iff _ _).mp hb)
      · exact ih ex a ha2
    · rw [if_neg hb]
      rcases List.mem_cons.mp ha with rfl | ha2
      · exact Or.inl (List.mem_cons_self _ _)
      · rcases ih (relativePath root b :: ex) a ha2 with h | h
        · exact Or.inl (List.mem_cons_of_mem _ h)
        · rcases List.mem_cons.mp h with he | he
          · rw [he]
            exact Or.inl (List.mem_cons_self _ _)
          · exact Or.inr he

theorem collectNewPaths_all_present (root : List Str) :
    ∀ (ps : List (List Str)) (ex : List Str),
      (∀ a ∈ ps, relativePath root a ∈ ex) →
      collectNewPaths root ex ps = [] := by
  intro ps
  induction ps with
  | nil => intro ex h; rfl
  | cons b rest ih =>
    intro ex h
    rw [collectNewPaths,
      if_pos ((contains_eq_true_iff _ _).mpr (h b (List.mem_cons_self b rest)))]
    exact ih ex (fun a ha => h a (List.mem_cons_of_mem b ha))

theorem collectNewPaths_are_rels (root : List Str) :
    ∀ (ps : List (List Str)) (ex : List Str) (rp : Str),
      rp ∈ collectNewPaths root ex ps →
      ∃ a ∈ ps, rp = relativePath root a := by
  intro ps
  induction ps with
  | nil =>
    intro ex rp hrp
    exact absurd hrp (List.not_mem_nil rp)
  | cons b rest ih =>
    intro ex rp hrp
    rw [collectNewPaths] at hrp
    by_cases hb : ex.contains (relativePath root b) = true
    · rw [if_pos hb] at hrp
      obtain ⟨a, ha, he⟩ := ih ex rp hrp
      exact ⟨a, List.mem_cons_of_mem b ha, he⟩
    · rw [if_neg hb] at hrp
      rcases List.mem_cons.mp hrp with rfl | h2
      · exact ⟨b, List.mem_cons_self b rest, rfl⟩
      · obtain ⟨a, ha, he⟩ := ih _ rp h2
        exact ⟨a, List.mem_cons_of_mem b ha, he⟩

/-- C4 (amended): when every relative path in the batch is a
well-formed ignore entry (non-blank, trim-invariant, not starting with
the comment mark, containing no newline), a second run with the same
batch over the file produced by the first run accepts nothing and
leaves the file exactly as it was — no write occurs at all. -/
theorem c4_second_run_is_noop (root : List Str) (file : IgnoreFile)
    (absPaths : List (List Str))
    (hgood : ∀ a ∈ absPaths, GoodEntry (relativePath root a)) :
    updateForceignoreFile root
        (updateForceignoreFile root file absPaths).1 absPaths =
      ((updateForceignoreFile root file absPaths).1, ([] : List Str)) := by
  cases file with
  | unreadable c => rfl
  | absent =>
    rw [updateForceignoreFile]
    by_cases h : collectNewPaths root [] absPaths = []
    · rw [if_pos h]
      dsimp only
      rw [updateForceignoreFile, if_pos h]
    · rw [if_neg h]
      dsimp only
      rw [updateForceignoreFile]
      have hgood2 : ∀ p1 ∈ collectNewPaths root [] absPaths, GoodEntry p1 := by
        intro p1 hp1
        obtain ⟨a, ha, he⟩ := collectNewPaths_are_rels root absPaths [] p1 hp1
        rw [he]
        exact hgood a ha
      have hent : existingEntryLines
          (splitLines (contentToAppend [] (collectNewPaths root [] absPaths)))
          = collectNewPaths root [] absPaths :=
        entryLines_fresh_append _ hgood2
      have hall : collectNewPaths root
          (existingEntryLines (splitLines
            (contentToAppend [] (collectNewPaths root [] absPaths)))) absPaths
          = [] := by
        rw [hent]
        apply collectNewPaths_all_present
        intro a ha
        rcases collectNewPaths_complete root absPaths [] a ha with hm | hm
        · exact hm
        · exact absurd hm (List.not_mem_nil _)
      rw [if_pos hall]
  | readable c =>
    rw [updateForceignoreFile]
    by_cases h : collectNewPaths root
        (existingEntryLines (splitLines c)) absPaths = []
    · rw [if_pos h]
      dsimp only
      rw [updateForceignoreFile, if_pos h]
    · rw [if_neg h]
      dsimp only
      rw [updateForceignoreFile]
      have hgood2 : ∀ p1 ∈ collectNewPaths root
          (existingEntryLines (splitLines c)) absPaths, GoodEntry p1 := by
        intro p1 hp1
        obtain ⟨a, ha, he⟩ := collectNewPaths_are_rels root absPaths _ p1 hp1
        rw [he]
        exact hgood a ha
      have hent := entryLines_after_append c
        (collectNewPaths root (existingEntryLines (splitLines c)) absPaths)
        hgood2 h
      have hall : collectNewPaths root
          (existingEntryLines (splitLines (c ++
            contentToAppend (splitLines c)
              (collectNewPaths root (existingEntryLines (splitLines c))
                absPaths)))) absPaths = [] := by
        rw [hent]
        apply collectNewPaths_all_present
        intro a ha
        rcases collectNewPaths_complete root absPaths
            (existingEntryLines (splitLines c)) a ha with hm | hm
        · exact List.mem_append.mpr (Or.inr hm)
        · exact List.mem_append.mpr (Or.inl hm)
      rw [if_pos hall]

theorem c4_witness :
    (∀ a ∈ [["a".data, "y.xml".data]],
      GoodEntry (relativePath [] a)) ∧
    updateForceignoreFile []
        (updateForceignoreFile [] .absent [["a".data, "y.xml".data]]).1
        [["a".data, "y.xml".data]] =
      ((updateForceignoreFile [] .absent [["a".data, "y.xml".data]]).1,
       ([] : List Str)) :=
  ⟨by decide, c4_second_run_is_noop [] .absent [["a".data, "y.xml".data]]
    (by decide)⟩

/-- C4 counterexample: for the batch whose single relative path is
"#x", the second run over the file state produced by the first run
accepts the path again (the written line reads back as a comment), so
the second run appends a new line instead of appending zero. -/
theorem c4_counterexample :
    (updateForceignoreFile []
        (updateForceignoreFile [] .absent [["#x".data]]).1
        [["#x".data]]).2 ≠ [] := by decide

/-- The appended text always consists of: a separator of at most two
newlines, the header line exactly when the header is not yet present,
then the new paths one per line with a trailing newline. -/
theorem contentToAppend_structure (lines : List Str) (paths : List Str) :
    ∃ sep, (sep = [] ∨ sep = ['\n'] ∨ sep = ['\n', '\n']) ∧
      contentToAppend lines paths =
        sep ++ (if headerExistsIn lines = true then ([] : Str)
          else SCRIPT_IGNORE_COMMENT ++ ['\n']) ++
        joinWith '\n' paths ++ ['\n'] := by
  unfold contentToAppend
  by_cases hh : headerExistsIn lines = false
  · rw [if_neg (by rw [hh]; exact Bool.false_ne_true)]
    by_cases h1 : lines.length > 0 ∧ trimStr (lines.getLastD []) ≠ [] ∧
        (headerExistsIn lines = false ∨
         trimStr (lines.getLastD []) ≠ SCRIPT_IGNORE_COMMENT)
    · have hs1 : sepC1 lines = ['\n'] := by rw [sepC1, if_pos h1]
      by_cases hf : (lines.filter (fun l => decide (trimStr l ≠ []))).length > 0
      · have hs2 : sepC2 lines = ['\n'] ++ SCRIPT_IGNORE_COMMENT ++ ['\n'] := by
          rw [sepC2, if_pos hh, if_pos hf]
        exact ⟨['\n', '\n'], Or.inr (Or.inr rfl), by rw [hs1, hs2]; simp⟩
      · have hs2 : sepC2 lines = ([] : Str) ++ SCRIPT_IGNORE_COMMENT ++ ['\n'] := by
          rw [sepC2, if_pos hh, if_neg hf]
        exact ⟨['\n'], Or.inr (Or.inl rfl), by rw [hs1, hs2]; simp⟩
    · have hs1 : sepC1 lines = [] := by rw [sepC1, if_neg h1]
      by_cases hf : (lines.filter (fun l => decide (trimStr l ≠ []))).length > 0
      · have hs2 : sepC2 lines = ['\n'] ++ SCRIPT_IGNORE_COMMENT ++ ['\n'] := by
          rw [sepC2, if_pos hh, if_pos hf]
        exact ⟨['\n'], Or.inr (Or.inl rfl), by rw [hs1, hs2]; simp⟩
      · have hs2 : sepC2 lines = ([] : Str) ++ SCRIPT_IGNORE_COMMENT ++ ['\n'] := by
          rw [sepC2, if_pos hh, if_neg hf]
        exact ⟨[], Or.inl rfl, by rw [hs1, hs2]; simp⟩
  · rw [if_pos (Bool.not_eq_false _ ▸ hh)]
    by_cases h1 : lines.length > 0 ∧ trimStr (lines.getLastD []) ≠ [] ∧
        (headerExistsIn lines = false ∨
         trimStr (lines.getLastD []) ≠ SCRIPT_IGNORE_COMMENT)
    · have hs1 : sepC1 lines = ['\n'] := by rw [sepC1, if_pos h1]
      have hs2 : sepC2 lines = [] := by
        rw [sepC2, if_neg hh, if_neg (by rw [hs1]; simp)]
      exact ⟨['\n'], Or.inr (Or.inl rfl), by rw [hs1, hs2]⟩
    · have hs1 : sepC1 lines = [] := by rw [sepC1, if_neg h1]
      by_cases hc : sepC1 lines = [] ∧ lines.length > 0 ∧
          trimStr (lines.getLastD []) ≠ []
      · have hs2 : sepC2 lines = ['\n'] := by rw [sepC2, if_neg hh, if_pos hc]
        exact ⟨['\n'], Or.inr (Or.inl rfl), by rw [hs1, hs2]; simp⟩
      · have hs2 : sepC2 lines = [] := by rw [sepC2, if_neg hh, if_neg hc]
        exact ⟨[], Or.inl rfl, by rw [hs1, hs2]⟩

/-- C7: when at least one new path is accepted, the writer appends one
block: a separation of at most one blank line from the existing
content, the header comment only if not already present anywhere in
the file, then every new relative path on its own line, the whole
append ending in a newline. -/
theorem c7_single_block_append (root : List Str) (file : IgnoreFile)
    (absPaths : List (List Str))
    (hnew : (updateForceignoreFile root file absPaths).2 ≠ []) :
    ∃ sep, (sep = [] ∨ sep = ['\n'] ∨ sep = ['\n', '\n']) ∧
      ((updateForceignoreFile root file absPaths).1).contentOf =
        file.contentOf ++ sep ++
        (if headerExistsIn file.linesOf = true then ([] : Str)
         else SCRIPT_IGNORE_COMMENT ++ ['\n']) ++
        joinWith '\n' (updateForceignoreFile root file absPaths).2 ++ ['\n'] := by
  cases file with
  | unreadable c => exact absurd rfl hnew
  | absent =>
    rw [updateForceignoreFile] at hnew ⊢
    by_cases h : collectNewPaths root [] absPaths = []
    · rw [if_pos h] at hnew
      exact absurd rfl hnew
    · rw [if_neg h]
      obtain ⟨sep, hsep, he⟩ := contentToAppend_structure []
        (collectNewPaths root [] absPaths)
      refine ⟨sep, hsep, ?_⟩
      dsimp only [IgnoreFile.contentOf, IgnoreFile.linesOf]
      rw [he]
      simp
  | readable c =>
    rw [updateForceignoreFile] at hnew ⊢
    by_cases h : collectNewPaths root (existingEntryLines (splitLines c))
        absPaths = []
    · rw [if_pos h] at hnew
      exact absurd rfl hnew
    · rw [if_neg h]
      obtain ⟨sep, hsep, he⟩ := contentToAppend_structure (splitLines c)
        (collectNewPaths root (existingEntryLines (splitLines c)) absPaths)
      refine ⟨sep, hsep, ?_⟩
      dsimp only [IgnoreFile.contentOf, IgnoreFile.linesOf]
      rw [he]
      simp

theorem c7_witness :
    (updateForceignoreFile [] (.readable "a\n".data) [["b".data]]).2 ≠ [] ∧
    (∃ sep, (sep = [] ∨ sep = ['\n'] ∨ sep = ['\n', '\n']) ∧
      ((updateForceignoreFile [] (.readable "a\n".data) [["b".data]]).1).contentOf =
        (IgnoreFile.readable "a\n".data).contentOf ++ sep ++
        (if headerExistsIn (IgnoreFile.readable "a\n".data).linesOf = true
         then ([] : Str) else SCRIPT_IGNORE_COMMENT ++ ['\n']) ++
        joinWith '\n'
          (updateForceignoreFile [] (.readable "a\n".data) [["b".data]]).2 ++
        ['\n']) :=
  ⟨by decide,
   c7_single_block_append [] (.readable "a\n".data) [["b".data]] (by decide)⟩

-- --- Well-formedness and deletion lemmas (towards claims C5, C8) ---

theorem wfChildren_iff (cs : List (Str × Entry)) :
    Entry.wfChildren cs = true ↔ ∀ nc ∈ cs, nc.2.wf = true := by
  induction cs with
  | nil => simp [Entry.wfChildren]
  | cons x rest ih =>
    cases x with
    | mk n c =>
      rw [Entry.wfChildren, Bool.and_eq_true, ih]
      constructor
      · intro ⟨h1, h2⟩ nc hnc
        rcases List.mem_cons.mp hnc with rfl | h3
        · exact h1
        · exact h2 nc h3
      · intro h
        exact ⟨h (n, c) (List.mem_cons_self _ _),
          fun nc hnc => h nc (List.mem_cons_of_mem _ hnc)⟩

theorem wf_dir_iff (r : Bool) (cs : List (Str × Entry)) :
    (Entry.dir r cs).wf = true ↔
      (cs.map Prod.fst).Nodup ∧ Entry.wfChildren cs = true := by
  rw [Entry.wf, Bool.and_eq_true, decide_eq_true_iff]

theorem find?_of_mem_nodup (cs : List (Str × Entry)) (n : Str) (c : Entry)
    (hnd : (cs.map Prod.fst).Nodup) (hmem : (n, c) ∈ cs) :
    cs.find? (fun nc => nc.1 == n) = some (n, c) := by
  induction cs with
  | nil => exact absurd hmem (List.not_mem_nil _)
  | cons x rest ih =>
    cases x with
    | mk m d =>
      rw [List.map_cons, List.nodup_cons] at hnd
      by_cases hmn : m = n
      · subst hmn
        have hcd : c = d := by
          rcases List.mem_cons.mp hmem with he | h3
          · exact (Prod.mk.injEq _ _ _ _ ▸ he).2
          · exact absurd (List.mem_map_of_mem Prod.fst h3) hnd.1
        subst hcd
        rw [List.find?_cons_of_pos _ (by simp)]
      · rw [List.find?_cons_of_neg _ (by simp [hmn])]
        have h3 : (n, c) ∈ rest := by
          rcases List.mem_cons.mp hmem with he | h3
          · exact absurd (Prod.mk.injEq _ _ _ _ ▸ he).1.symm hmn
          · exact h3
        exact ih hnd.2 h3

theorem entryAt_wf (p : List Str) :
    ∀ (e : Entry), e.wf = true → ∀ d, entryAt e p = some d → d.wf = true := by
  induction p with
  | nil =>
    intro e hwf d hd
    rw [entryAt] at hd
    rw [← Option.some.inj hd]
    exact hwf
  | cons n rest ih =>
    intro e hwf d hd
    cases e with
    | file c => simp [entryAt] at hd
    | statErr => simp [entryAt] at hd
    | dir r cs =>
      rw [entryAt] at hd
      cases hf : cs.find? (fun nc => nc.1 == n) with
      | none => rw [hf] at hd; simp at hd
      | some nc =>
        rw [hf] at hd
        dsimp only at hd
        have hmem := List.mem_of_find?_eq_some hf
        have hcw : nc.2.wf = true :=
          (wfChildren_iff cs).mp ((wf_dir_iff r cs).mp hwf).2 nc hmem
        exact ih nc.2 hcw d hd

theorem map_fst_removePath (cs : List (Str × Entry)) (n : Str)
    (q : List Str) :
    ((cs.map (fun nc =>
        if nc.1 == n then (nc.1, removePath nc.2 q) else nc)).map Prod.fst)
      = cs.map Prod.fst := by
  induction cs with
  | nil => rfl
  | cons x rest ih =>
    simp only [List.map_cons, ih]
    by_cases h : x.1 == n
    · rw [if_pos h]
    · rw [if_neg h]

theorem removePath_wf (q : List Str) :
    ∀ (e : Entry), e.wf = true → (removePath e q).wf = true := by
  induction q with
  | nil => intro e hwf; cases e <;> exact hwf
  | cons n rest ih =>
    intro e hwf
    cases e with
    | file c => exact hwf
    | statErr => exact hwf
    | dir r cs =>
      cases rest with
      | nil =>
        rw [removePath]
        rw [wf_dir_iff] at hwf ⊢
        refine ⟨?_, ?_⟩
        · exact ((List.filter_sublist cs).map Prod.fst).nodup hwf.1
        · rw [wfChildren_iff]
          intro nc hnc
          exact (wfChildren_iff cs).mp hwf.2 nc (List.mem_of_mem_filter hnc)
      | cons m rest2 =>
        rw [removePath]
        rw [wf_dir_iff] at hwf ⊢
        refine ⟨?_, ?_⟩
        · rw [map_fst_removePath]
          exact hwf.1
        · rw [wfChildren_iff]
          intro nc hnc
          obtain ⟨nc0, hnc0, he⟩ := List.mem_map.mp hnc
          by_cases h : nc0.1 == n
          · rw [if_pos h] at he
            rw [← he]
            exact ih nc0.2 ((wfChildren_iff cs).mp hwf.2 nc0 hnc0)
          · rw [if_neg h] at he
            rw [← he]
            exact (wfChildren_iff cs).mp hwf.2 nc0 hnc0

theorem isFileAt_nil (e : Entry) : isFileAt e [] = e.isFile := by
  cases e <;> rfl

theorem isFileAt_dir_cons (r : Bool) (cs : List (Str × Entry)) (k : Str)
    (ps : List Str) :
    isFileAt (.dir r cs) (k :: ps) =
      (match cs.find? (fun nc => nc.1 == k) with
       | some nc => isFileAt nc.2 ps
       | none => false) := by
  rw [isFileAt, entryAt]
  cases cs.find? (fun nc => nc.1 == k) with
  | none => rfl
  | some nc => rfl

theorem find?_filter_keep {α : Type} (pred keep : α → Bool) (l : List α)
    (h : ∀ x ∈ l, pred x = true → keep x = true) :
    (l.filter keep).find? pred = l.find? pred := by
  induction l with
  | nil => rfl
  | cons x rest ih =>
    by_cases hk : keep x = true
    · rw [List.filter_cons_of_pos hk]
      by_cases hp : pred x = true
      · rw [List.find?_cons_of_pos _ hp, List.find?_cons_of_pos _ hp]
      · rw [List.find?_cons_of_neg _ (by simp [hp]),
          List.find?_cons_of_neg _ (by simp [hp])]
        exact ih (fun y hy => h y (List.mem_cons_of_mem x hy))
    · rw [List.filter_cons_of_neg (by simp [hk])]
      have hp : pred x = false := by
        by_cases hp2 : pred x = true
        · exact absurd (h x (List.mem_cons_self x rest) hp2) hk
        · exact Bool.not_eq_true _ ▸ hp2
      rw [List.find?_cons_of_neg _ (by simp [hp])]
      exact ih (fun y hy => h y (List.mem_cons_of_mem x hy))

theorem isFileAt_removePath :
    ∀ (q : List Str), q ≠ [] →
    ∀ (e : Entry), e.wf = true →
    ∀ p, isFileAt (removePath e q) p = true ↔
      (isFileAt e p = true ∧ p ≠ q) := by
  intro q
  induction q with
  | nil => intro hq; exact absurd rfl hq
  | cons n qrest ih =>
    intro _ e hwf p
    cases e with
    | file c =>
      have hrm : removePath (.file c) (n :: qrest) = .file c := by
        cases qrest <;> rfl
      rw [hrm]
      cases p with
      | nil => simp [isFileAt_nil, Entry.isFile]
      | cons k ps => simp [isFileAt, entryAt]
    | statErr =>
      have hrm : removePath Entry.statErr (n :: qrest) = Entry.statErr := by
        cases qrest <;> rfl
      rw [hrm]
      cases p with
      | nil => simp [isFileAt_nil, Entry.isFile]
      | cons k ps => simp [isFileAt, entryAt]
    | dir r cs =>
      have hnd : (cs.map Prod.fst).Nodup := ((wf_dir_iff r cs).mp hwf).1
      have hwfc := ((wf_dir_iff r cs).mp hwf).2
      cases qrest with
      | nil =>
        rw [show removePath (.dir r cs) [n]
            = .dir r (cs.filter (fun nc => !(nc.1 == n && nc.2.isFile)))
            from rfl]
        cases p with
        | nil => simp [isFileAt_nil, Entry.isFile]
        | cons k ps =>
          rw [isFileAt_dir_cons, isFileAt_dir_cons]
          by_cases hkn : k = n
          · subst hkn
            cases hf : cs.find? (fun nc => nc.1 == k) with
            | none =>
              have hf2 : (cs.filter (fun nc => !(nc.1 == k && nc.2.isFile))).find?
                  (fun nc => nc.1 == k) = none := by
                rw [List.find?_eq_none] at hf ⊢
                intro x hx
                exact hf x (List.mem_of_mem_filter hx)
              rw [hf2]
              simp
            | some nc =>
              obtain ⟨n1, c1⟩ := nc
              have hk : n1 = k := by simpa using List.find?_some hf
              subst hk
              have hmem := List.mem_of_find?_eq_some hf
              by_cases hfile : c1.isFile = true
              · have hf2 : (cs.filter (fun nc => !(nc.1 == n1 && nc.2.isFile))).find?
                    (fun nc => nc.1 == n1) = none := by
                  rw [List.find?_eq_none]
                  intro x hx hxk
                  have hxmem := List.mem_of_mem_filter hx
                  have hxkeep := List.of_mem_filter hx
                  have hxk2 : x.1 = n1 := by simpa using hxk
                  have hxe : x = (n1, c1) :=
                    List.inj_on_of_nodup_map hnd hxmem hmem (by simp [hxk2])
                  rw [hxe] at hxkeep
                  simp [hfile] at hxkeep
                rw [hf2]
                dsimp only
                constructor
                · intro hfalse; exact absurd hfalse (by simp)
                · intro ⟨h1, h2⟩
                  exfalso
                  cases ps with
                  | nil => exact h2 rfl
                  | cons p2 ps2 =>
                    cases c1 with
                    | file cc => simp [isFileAt, entryAt] at h1
                    | dir rr cc => exact absurd hfile (by simp [Entry.isFile])
                    | statErr => exact absurd hfile (by simp [Entry.isFile])
              · have hkeep : (!((n1, c1).1 == n1 && (n1, c1).2.isFile)) = true := by
                  simp [hfile]
                have hmem2 : (n1, c1) ∈
                    cs.filter (fun nc => !(nc.1 == n1 && nc.2.isFile)) :=
                  List.mem_filter.mpr ⟨hmem, hkeep⟩
                have hnd2 : ((cs.filter (fun nc => !(nc.1 == n1 && nc.2.isFile))).map
                    Prod.fst).Nodup :=
                  ((List.filter_sublist cs).map Prod.fst).nodup hnd
                have hf2 := find?_of_mem_nodup _ n1 c1 hnd2 hmem2
                rw [hf2]
                dsimp only
                cases ps with
                | nil =>
                  rw [isFileAt_nil]
                  constructor
                  · intro h1; exact absurd h1 (by simp [hfile])
                  · intro ⟨h1, h2⟩; exact absurd h1 (by simp [hfile])
                | cons p2 ps2 => simp
          · have hfeq : (cs.filter (fun nc => !(nc.1 == n && nc.2.isFile))).find?
                (fun nc => nc.1 == k) = cs.find? (fun nc => nc.1 == k) := by
              apply find?_filter_keep
              intro x hx hxk
              have hxk2 : x.1 = k := by simpa using hxk
              simp [hxk2, hkn]
            rw [hfeq]
            cases hf : cs.find? (fun nc => nc.1 == k) with
            | none => simp
            | some nc => simp [hkn]
      | cons m qrest2 =>
        rw [show removePath (.dir r cs) (n :: m :: qrest2)
            = .dir r (cs.map (fun nc =>
                if nc.1 == n then (nc.1, removePath nc.2 (m :: qrest2)) else nc))
            from rfl]
        cases p with
        | nil => simp [isFileAt_nil, Entry.isFile]
        | cons k ps =>
          rw [isFileAt_dir_cons, isFileAt_dir_cons]
          rw [List.find?_map]
          have hcomp : ((fun nc : Str × Entry => nc.1 == k) ∘
              (fun nc => if nc.1 == n then (nc.1, removePath nc.2 (m :: qrest2))
                else nc)) = (fun nc => nc.1 == k) := by
            funext nc
            by_cases h : nc.1 = n
            · simp [h]
            · simp [h]
          rw [hcomp]
          by_cases hkn : k = n
          · subst hkn
            cases hf : cs.find? (fun nc => nc.1 == k) with
            | none => simp
            | some nc =>
              obtain ⟨n1, c1⟩ := nc
              have hk : n1 = k := by simpa using List.find?_some hf
              subst hk
              have hmem := List.mem_of_find?_eq_some hf
              have hwfc1 : c1.wf = true := (wfChildren_iff cs).mp hwfc _ hmem
              rw [Option.map_some']
              dsimp only
              rw [if_pos (by simp)]
              dsimp only
              rw [ih (by simp) c1 hwfc1 ps]
              simp
          · cases hf : cs.find? (fun nc => nc.1 == k) with
            | none => simp
            | some nc =>
              obtain ⟨n1, c1⟩ := nc
              have hk : n1 = k := by simpa using List.find?_some hf
              subst hk
              rw [Option.map_some']
              dsimp only
              rw [if_neg (by simp [hkn])]
              simp [hkn]

theorem entryAt_dir_cons (r : Bool) (cs : List (Str × Entry)) (n : Str)
    (rest : List Str) :
    entryAt (.dir r cs) (n :: rest) =
      (match cs.find? (fun nc => nc.1 == n) with
       | some nc => entryAt nc.2 rest
       | none => none) := by
  rw [entryAt]

theorem entryAt_append (p p' : List Str) :
    ∀ e : Entry, entryAt e (p ++ p') =
      (match entryAt e p with
       | some d => entryAt d p'
       | none => none) := by
  induction p with
  | nil =>
    intro e
    rw [List.nil_append, entryAt]
  | cons n rest ih =>
    intro e
    cases e with
    | file c => rfl
    | statErr => rfl
    | dir r cs =>
      rw [List.cons_append, entryAt, entryAt]
      cases cs.find? (fun nc => nc.1 == n) with
      | none => rfl
      | some nc => exact ih nc.2

theorem identify_mem_shape (fp : List Str) (e : Entry) (crit : Str) (q : List Str)
    (hq : q ∈ identifyFilesForAction fp e crit) :
    ∃ n content, q = fp ++ [n] ∧ (n, Entry.file (some content)) ∈
      (match e with | .dir true cs => cs | _ => []) ∧
      jsIncludes content crit = false := by
  cases e with
  | file c => simp [identifyFilesForAction] at hq
  | statErr => simp [identifyFilesForAction] at hq
  | dir r cs =>
    cases r with
    | false => simp [identifyFilesForAction] at hq
    | true =>
      rw [identifyFilesForAction, List.mem_flatMap] at hq
      obtain ⟨nc, hnc, hin⟩ := hq
      match h2 : nc.2 with
      | .file (some content) =>
        rw [h2] at hin
        dsimp only at hin
        by_cases hinc : jsIncludes content crit = true
        · rw [if_pos hinc] at hin
          exact absurd hin (List.not_mem_nil q)
        · rw [if_neg hinc] at hin
          have hqe := List.mem_singleton.mp hin
          refine ⟨nc.1, content, hqe, ?_, Bool.not_eq_true _ ▸ hinc⟩
          have : nc = (nc.1, Entry.file (some content)) := by
            rw [← h2]
          rw [← this]
          exact hnc
      | .file none =>
        rw [h2] at hin
        dsimp only at hin
        exact absurd hin (List.not_mem_nil q)
      | .dir r2 cs2 =>
        rw [h2] at hin
        dsimp only at hin
        exact absurd hin (List.not_mem_nil q)
      | .statErr =>
        rw [h2] at hin
        dsimp only at hin
        exact absurd hin (List.not_mem_nil q)

theorem identify_mem_isFileAt (tree : Entry) (fp : List Str) (crit : Str)
    (hwf : tree.wf = true) (q : List Str)
    (hq : q ∈ identifyFilesForAction fp ((entryAt tree fp).getD Entry.statErr)
      crit) :
    isFileAt tree q = true ∧ q ≠ [] := by
  cases he : entryAt tree fp with
  | none =>
    rw [he] at hq
    simp [identifyFilesForAction] at hq
  | some d =>
    rw [he] at hq
    obtain ⟨n, content, hqe, hmem, hni⟩ := identify_mem_shape fp d crit q hq
    cases d with
    | file c => simp at hmem
    | statErr => simp at hmem
    | dir r cs =>
      cases r with
      | false => simp at hmem
      | true =>
        dsimp only at hmem
        have hdwf : (Entry.dir true cs).wf = true := entryAt_wf fp tree hwf _ he
        have hnd := ((wf_dir_iff true cs).mp hdwf).1
        refine ⟨?_, by rw [hqe]; simp⟩
        rw [hqe, isFileAt, entryAt_append fp [n] tree, he]
        dsimp only
        rw [entryAt_dir_cons, find?_of_mem_nodup cs n _ hnd hmem]
        rfl

theorem foldl_removePath_spec (files : List (List Str)) :
    ∀ (tree : Entry), tree.wf = true →
    (∀ q ∈ files, q ≠ []) →
    ((files.foldl removePath tree).wf = true ∧
     ∀ p, isFileAt (files.foldl removePath tree) p = true ↔
       (isFileAt tree p = true ∧ p ∉ files)) := by
  induction files with
  | nil =>
    intro tree hwf _
    exact ⟨hwf, fun p => by simp⟩
  | cons q rest ih =>
    intro tree hwf hne
    rw [List.foldl_cons]
    have hwf2 := removePath_wf q tree hwf
    obtain ⟨hwf3, hiff⟩ := ih (removePath tree q) hwf2
      (fun q2 hq2 => hne q2 (List.mem_cons_of_mem q hq2))
    refine ⟨hwf3, fun p => ?_⟩
    rw [hiff p,
      isFileAt_removePath q (hne q (List.mem_cons_self q rest)) tree hwf p]
    constructor
    · intro ⟨⟨h1, h2⟩, h3⟩
      refine ⟨h1, ?_⟩
      intro hm
      rcases List.mem_cons.mp hm with rfl | hm2
      · exact h2 rfl
      · exact h3 hm2
    · intro ⟨h1, h2⟩
      exact ⟨⟨h1, fun he => h2 (he ▸ List.mem_cons_self q rest)⟩,
        fun hm => h2 (List.mem_cons_of_mem q hm)⟩

theorem processTargetFolders_spec (del : Bool) (folders : List (List Str)) :
    ∀ (tree : Entry), tree.wf = true →
    ((processTargetFolders del folders tree).1.wf = true) ∧
    (del = false → (processTargetFolders del folders tree).1 = tree) ∧
    (∀ q ∈ (processTargetFolders del folders tree).2,
      isFileAt tree q = true ∧ q ≠ []) ∧
    (∀ p, isFileAt (processTargetFolders del folders tree).1 p = true ↔
      (isFileAt tree p = true ∧
        (del = true → p ∉ (processTargetFolders del folders tree).2))) := by
  induction folders with
  | nil =>
    intro tree hwf
    refine ⟨hwf, fun _ => rfl, ?_, fun p => ?_⟩
    · intro q hq
      simp [processTargetFolders] at hq
    · simp [processTargetFolders]
  | cons fp rest ih =>
    intro tree hwf
    simp only [processTargetFolders]
    cases del with
    | false =>
      simp only [if_neg (by simp : ¬(false = true))] at *
      obtain ⟨ihwf, ihtr, ihcol, ihiff⟩ := ih tree hwf
      refine ⟨ihwf, fun _ => ihtr (by trivial), ?_, fun p => ?_⟩
      · intro q hq
        rcases List.mem_append.mp hq with h1 | h2
        · exact identify_mem_isFileAt tree fp CRITERIA_STRING hwf q h1
        · exact ihcol q h2
      · rw [ihiff p]
        simp
    | true =>
      simp only [eq_self_iff_true, if_true]
      have hfq : ∀ q ∈ identifyFilesForAction fp
          ((entryAt tree fp).getD Entry.statErr) CRITERIA_STRING,
          isFileAt tree q = true ∧ q ≠ [] :=
        fun q hq => identify_mem_isFileAt tree fp CRITERIA_STRING hwf q hq
      obtain ⟨hwfF, hiffF⟩ := foldl_removePath_spec _ tree hwf
        (fun q hq => (hfq q hq).2)
      obtain ⟨ihwf, ihtr, ihcol, ihiff⟩ := ih _ hwfF
      refine ⟨ihwf, fun h => absurd h (by simp), ?_, fun p => ?_⟩
      · intro q hq
        rcases List.mem_append.mp hq with h1 | h2
        · exact hfq q h1
        · obtain ⟨h3, h4⟩ := ihcol q h2
          exact ⟨((hiffF q).mp h3).1, h4⟩
      · rw [ihiff p, hiffF p]
        constructor
        · intro ⟨⟨h1, h2⟩, h3⟩
          refine ⟨h1, fun _ hm => ?_⟩
          rcases List.mem_append.mp hm with hm1 | hm2
          · exact h2 hm1
          · exact h3 (by trivial) hm2
        · intro ⟨h1, h2⟩
          exact ⟨⟨h1, fun hm => h2 (by trivial) (List.mem_append.mpr (Or.inl hm))⟩,
            fun _ hm => h2 (by trivial) (List.mem_append.mpr (Or.inr hm))⟩

/-- C5: with deletion disabled no file is removed; with deletion
enabled exactly the files the run identifies as actionable are removed
and no other; and the run's only mutations are those deletions plus at
most the single ignore-list update — for both script variants. -/
theorem c5_delete_exactly_actionable (del upd : Bool) (tree : Entry)
    (ign : IgnoreFile) (hwf : tree.wf = true) (hdir : tree.isDir = true) :
    (del = false →
      (processTargetFolders del
        (findTargetFoldersRecursive TARGET_FOLDER_NAME [] tree) tree).1
        = tree) ∧
    (∀ p, isFileAt (processTargetFolders del
        (findTargetFoldersRecursive TARGET_FOLDER_NAME [] tree) tree).1 p
        = true ↔
      (isFileAt tree p = true ∧ (del = true →
        p ∉ (processTargetFolders del
          (findTargetFoldersRecursive TARGET_FOLDER_NAME [] tree) tree).2))) ∧
    (runMain (ParsedArgs.mk del upd []) (World.mk (some tree) ign) =
      (World.mk
        (some (processTargetFolders del
          (findTargetFoldersRecursive TARGET_FOLDER_NAME [] tree) tree).1)
        (if upd = true ∧ (processTargetFolders del
              (findTargetFoldersRecursive TARGET_FOLDER_NAME [] tree) tree).2
              ≠ []
            then (updateForceignoreFile [] ign (processTargetFolders del
              (findTargetFoldersRecursive TARGET_FOLDER_NAME [] tree)
                tree).2).1
            else ign), 0)) ∧
    (∀ fp, processFilesLookigForAbsence false fp CRITERIA_STRING tree
        = tree) ∧
    (∀ fp p, isFileAt
        (processFilesLookigForAbsence true fp CRITERIA_STRING tree) p = true ↔
      (isFileAt tree p = true ∧ p ∉ identifyFilesForAction fp
        ((entryAt tree fp).getD Entry.statErr) CRITERIA_STRING)) := by
  obtain ⟨hwfO, htr, hcol, hiff⟩ := processTargetFolders_spec del
    (findTargetFoldersRecursive TARGET_FOLDER_NAME [] tree) tree hwf
  refine ⟨htr, hiff, ?_, fun fp => rfl, fun fp p => ?_⟩
  · rw [runMain]
    dsimp only
    rw [if_neg (by rw [hdir]; simp)]
    by_cases htf : findTargetFoldersRecursive TARGET_FOLDER_NAME [] tree = []
    · rw [if_pos htf, htf]
      rw [show processTargetFolders del [] tree = (tree, []) from rfl]
      simp
    · rw [if_neg htf]
  · rw [processFilesLookigForAbsence, if_pos rfl]
    obtain ⟨_, hiff2⟩ := foldl_removePath_spec
      (identifyFilesForAction fp ((entryAt tree fp).getD Entry.statErr)
        CRITERIA_STRING) tree hwf
      (fun q hq =>
        (identify_mem_isFileAt tree fp CRITERIA_STRING hwf q hq).2)
    exact hiff2 p

theorem c5_witness :
    ((Entry.dir true [("a".data,
        Entry.dir true [("dataSourceObjects".data,
          Entry.dir true [("y".data, Entry.file (some "no marker".data))])])]).wf
      = true) ∧
    ((Entry.dir true [("a".data,
        Entry.dir true [("dataSourceObjects".data,
          Entry.dir true [("y".data, Entry.file (some "no marker".data))])])]).isDir
      = true) ∧
    (∀ p, isFileAt (processTargetFolders true
        (findTargetFoldersRecursive TARGET_FOLDER_NAME []
          (Entry.dir true [("a".data,
            Entry.dir true [("dataSourceObjects".data,
              Entry.dir true [("y".data, Entry.file (some "no marker".data))])])]))
        (Entry.dir true [("a".data,
          Entry.dir true [("dataSourceObjects".data,
            Entry.dir true [("y".data, Entry.file (some "no marker".data))])])])).1
        p = true ↔
      (isFileAt (Entry.dir true [("a".data,
          Entry.dir true [("dataSourceObjects".data,
            Entry.dir true [("y".data, Entry.file (some "no marker".data))])])]) p
          = true ∧
        (true = true → p ∉ (processTargetFolders true
          (findTargetFoldersRecursive TARGET_FOLDER_NAME []
            (Entry.dir true [("a".data,
              Entry.dir true [("dataSourceObjects".data,
                Entry.dir true [("y".data, Entry.file (some "no marker".data))])])]))
          (Entry.dir true [("a".data,
            Entry.dir true [("dataSourceObjects".data,
              Entry.dir true [("y".data, Entry.file (some "no marker".data))])])])).2))) :=
  ⟨by decide, by decide,
   (c5_delete_exactly_actionable true false _ .absent (by decide)
     (by decide)).2.1⟩

/-- C8: a read failure on an existing ignore-list file makes the
update step return without writing (the file keeps its bytes), while
the deletions already performed in the run stand — the final tree is
the processed tree, not a rollback. -/
theorem c8_unreadable_ignore_aborts_without_rollback (del upd : Bool)
    (tree : Entry) (c : Str) (hdir : tree.isDir = true) :
    (∀ (root : List Str) (absPaths : List (List Str)),
      updateForceignoreFile root (.unreadable c) absPaths
        = (.unreadable c, [])) ∧
    ((runMain (ParsedArgs.mk del upd [])
        (World.mk (some tree) (.unreadable c))).1.ignore = .unreadable c) ∧
    ((runMain (ParsedArgs.mk del upd [])
        (World.mk (some tree) (.unreadable c))).1.root =
      some (processTargetFolders del
        (findTargetFoldersRecursive TARGET_FOLDER_NAME [] tree) tree).1) := by
  refine ⟨fun root absPaths => rfl, ?_, ?_⟩
  · rw [runMain]
    dsimp only
    rw [if_neg (by rw [hdir]; simp)]
    by_cases htf : findTargetFoldersRecursive TARGET_FOLDER_NAME [] tree = []
    · rw [if_pos htf]
    · rw [if_neg htf]
      dsimp only
      by_cases hc : upd = true ∧ (processTargetFolders del
          (findTargetFoldersRecursive TARGET_FOLDER_NAME [] tree) tree).2 ≠ []
      · rw [if_pos hc]
        rfl
      · rw [if_neg hc]
  · rw [runMain]
    dsimp only
    rw [if_neg (by rw [hdir]; simp)]
    by_cases htf : findTargetFoldersRecursive TARGET_FOLDER_NAME [] tree = []
    · rw [if_pos htf, htf]
      rfl
    · rw [if_neg htf]

theorem c8_witness :
    ((Entry.dir true [("dataSourceObjects".data,
        Entry.dir true [("y".data, Entry.file (some "x".data))])]).isDir
      = true) ∧
    (updateForceignoreFile [] (.unreadable "z".data) [["q".data]]
      = (.unreadable "z".data, [])) ∧
    ((runMain (ParsedArgs.mk true true [])
        (World.mk (some (Entry.dir true [("dataSourceObjects".data,
          Entry.dir true [("y".data, Entry.file (some "x".data))])]))
          (.unreadable "z".data))).1.ignore = .unreadable "z".data) :=
  ⟨by decide,
   (c8_unreadable_ignore_aborts_without_rollback true true
     (Entry.dir true [("dataSourceObjects".data,
       Entry.dir true [("y".data, Entry.file (some "x".data))])])
     "z".data (by decide)).1 [] [["q".data]],
   (c8_unreadable_ignore_aborts_without_rollback true true
     (Entry.dir true [("dataSourceObjects".data,
       Entry.dir true [("y".data, Entry.file (some "x".data))])])
     "z".data (by decide)).2.1⟩
